import Mathlib

/-!
Verification development for the pattern-core engine of relateby/pattern-rs.

The engine itself is a Rust crate exposed to Python through bindings; the
repository snapshot at hand contains only the bindings, the Python test
suite and examples.  The definitions below are therefore modelled from the
specification (spec.md) of the core data model and algebra, and are checked
against the behaviour documented by the Python tests.
-/

/-- Modelled from the spec: `Pattern<T>` — "value: T (payload decorating this
node); elements: ordered sequence of Pattern<T> (owned children, order
significant, may be empty)."  The missing source is the Rust `Pattern` type
of the pattern-core crate. -/
inductive Pattern (T : Type) where
  | mk (value : T) (elements : List (Pattern T))

namespace Pattern

/-- Modelled from the spec: payload accessor (`extract` reads it). -/
def value : Pattern T → T
  | .mk v _ => v

/-- Modelled from the spec: the ordered children sequence. -/
def elements : Pattern T → List (Pattern T)
  | .mk _ es => es

/-- Modelled from the spec: "`point(value)` → atomic Pattern with given
value, empty elements." -/
def point (v : T) : Pattern T :=
  .mk v []

/-- Modelled from the spec: "`pattern(value, elements)` → composite Pattern
with given value and the given ordered sequence of child Patterns." -/
def pattern (v : T) (es : List (Pattern T)) : Pattern T :=
  .mk v es

/-- Modelled from the spec: "`length()` = count of direct elements (0 for
atomic)." -/
def length (p : Pattern T) : Nat :=
  p.elements.length

/-- Modelled from the spec: "A Pattern with an empty elements sequence is
atomic". -/
def is_atomic (p : Pattern T) : Bool :=
  p.elements.isEmpty

/-- Modelled from the spec: "`size()` = 1 + sum of `size()` over all
elements (total node count including self)." -/
def size : Pattern T → Nat
  | .mk _ es => 1 + (es.attach.map (fun e => size e.1)).sum
termination_by p => sizeOf p
decreasing_by
  have h1 := List.sizeOf_lt_of_mem e.2
  simp only [mk.sizeOf_spec]
  omega

/-- Modelled from the spec: "`values()` / pre-order traversal order is
defined as: self.value, followed by, for each element in order, that
element's full pre-order sequence." -/
def values : Pattern T → List T
  | .mk v es => v :: (es.attach.map (fun e => values e.1)).flatten
termination_by p => sizeOf p
decreasing_by
  have h1 := List.sizeOf_lt_of_mem e.2
  simp only [mk.sizeOf_spec]
  omega

/-- Modelled from the spec: "`extract()`: returns `self.value`." -/
def extract (p : Pattern T) : T :=
  p.value

mutual
/-- Modelled from the spec: "`fold(init, f)`: accumulates over the pre-order
sequence of values: `acc0 = f(init, self.value)`; then for each element in
order, `acc_{i+1} = element.fold(acc_i, f)`." -/
def fold (f : A → T → A) : A → Pattern T → A
  | init, .mk v es => foldForest f (f init v) es
termination_by _ p => sizeOf p

/-- The loop of `fold` over the ordered children: threads the accumulator
through `element.fold` for each element in order. -/
def foldForest (f : A → T → A) : A → List (Pattern T) → A
  | acc, [] => acc
  | acc, e :: es => foldForest f (fold f acc e) es
termination_by _ es => sizeOf es
end

/-- Modelled from the spec: "`para(f)`: for an atomic node, `f(node, [])`;
for a composite node, first recursively compute `r_i = elements[i].para(f)`
for every child in order, then return `f(node, [r0, r1, ...])`" — `f`
receives the original node together with its children's reduced results. -/
def para (f : Pattern T → List R → R) : Pattern T → R
  | .mk v es => f (.mk v es) (es.attach.map (fun e => para f e.1))
termination_by p => sizeOf p
decreasing_by
  have h1 := List.sizeOf_lt_of_mem e.2
  simp only [mk.sizeOf_spec]
  omega

/-- Modelled from the spec: "`map(f)`: returns a new Pattern with every
node's value replaced by `f(value)`, structure (shape and order)
unchanged." -/
def map (f : T → U) : Pattern T → Pattern U
  | .mk v es => .mk (f v) (es.attach.map (fun e => map f e.1))
termination_by p => sizeOf p
decreasing_by
  have h1 := List.sizeOf_lt_of_mem e.2
  simp only [mk.sizeOf_spec]
  omega

/-- The shape of a Pattern: the tree with every payload forgotten.  Two
Patterns have "exactly the same shape (children count and order at every
node)" precisely when their shapes are equal. -/
def shape (p : Pattern T) : Pattern Unit :=
  map (fun _ => ()) p

mutual
/-- Modelled from the spec: "`matches(other)`: deep structural equality —
same value at every corresponding position and identical shape (children
count and order), recursively." -/
def matchesPat [DecidableEq T] : Pattern T → Pattern T → Bool
  | .mk v es, .mk w fs => decide (v = w) && matchesForest es fs
termination_by p _ => sizeOf p

/-- Pairwise `matchesPat` of two children sequences; false when the counts
differ. -/
def matchesForest [DecidableEq T] : List (Pattern T) → List (Pattern T) → Bool
  | [], [] => true
  | e :: es, g :: gs => matchesPat e g && matchesForest es gs
  | _, _ => false
termination_by es _ => sizeOf es
end

/-- Modelled from the spec: "`combine(other)`: returns a Pattern whose
elements are `self.elements` concatenated with `other.elements` (order
preserved, self's first), and whose value is produced by a type-dependent
combination rule" — the value rule is the parameter `f`. -/
def combine (f : T → T → T) (a b : Pattern T) : Pattern T :=
  .mk (f a.value b.value) (a.elements ++ b.elements)

/-- Modelled from the spec: the value-combination rule for "scalar text
values: concatenation", giving `combine` at Pattern String. -/
def combineStr (a b : Pattern String) : Pattern String :=
  combine (fun x y => x ++ y) a b

end Pattern

/-- Modelled from the spec: Value — "closed tagged-union scalar type
(string, integer, decimal, boolean, symbol, array, map, bounded range,
measurement-with-unit)"; the missing source is the Rust `Value` enum. -/
inductive Value where
  | string (s : String)
  | integer (n : Int)
  | decimal (d : Float)
  | boolean (b : Bool)
  | symbol (s : String)
  | array (items : List Value)
  | map (entries : List (String × Value))
  | range (lower upper : Float)
  | measurement (magnitude : Float) (unit : String)

/-- Modelled from the spec: Subject — "identity: optional string
(default/anonymous sentinel when absent); labels: set of string;
properties: mapping string→Value (keys unique)". -/
structure Subject where
  identity : Option String
  labels : Finset String
  properties : List (String × Value)

/-- Modelled from the spec: the `empty` strategy result — "anonymous
identity sentinel, empty labels, empty properties". -/
def Subject.anonymous : Subject :=
  ⟨none, ∅, []⟩

/-- Modelled from the spec: default `merge` strategy — "identity = self's
identity; labels = union; properties = union, keys present in both resolved
by a policy that may retain either side" (the left side is retained). -/
def Subject.merge (a b : Subject) : Subject :=
  { identity := a.identity
    labels := a.labels ∪ b.labels
    properties :=
      a.properties ++ b.properties.filter
        (fun kv => a.properties.all (fun kv2 => kv2.1 != kv.1)) }

namespace Pattern

/-- Modelled from the spec: `combine` on Subject payloads with a named
strategy — "`merge` (union everything, identity from left operand), `first`
(result = left operand's Subject verbatim, still concatenates elements),
`last` (result = right operand's Subject verbatim), `empty` (anonymous
identity sentinel, empty labels, empty properties); an unrecognized
strategy name fails with an UnknownStrategy error. -/
def combineSubject (a b : Pattern Subject) (strategy : String) :
    Except String (Pattern Subject) :=
  match strategy with
  | "merge" => .ok (combine Subject.merge a b)
  | "first" => .ok (combine (fun x _ => x) a b)
  | "last" => .ok (combine (fun _ y => y) a b)
  | "empty" => .ok (combine (fun _ _ => Subject.anonymous) a b)
  | _ => .error "Unknown combination strategy"

end Pattern

/-- Modelled from the spec: ValidationRules — "optional max_depth (integer
≥ 0), optional max_elements (integer ≥ 0); either or both may be unset,
meaning unconstrained." -/
structure ValidationRules where
  max_depth : Option Nat
  max_elements : Option Nat

/-- Modelled from the spec: ValidationError — "kind tag (which rule
failed), human-readable message, offending rule name, location: ordered
sequence of child-indices identifying the offending node's path from the
root (empty sequence = root itself)." -/
structure ValidationError where
  rule : String
  message : String
  location : List Nat

namespace Pattern

/-- Modelled from the spec: the per-node check of `validate` — "at every
node (root included) checks `length() <= rules.max_elements` (if set) and
the node's depth-from-root `<= rules.max_depth` (if set)"; returns the name
of the first failing rule, if any. -/
def checkNode (rules : ValidationRules) (depth : Nat) (p : Pattern T) :
    Option String :=
  if (match rules.max_elements with
      | some m => decide (m < p.length)
      | none => false) then some "max_elements"
  else if (match rules.max_depth with
      | some d => decide (d < depth)
      | none => false) then some "max_depth"
  else none

mutual
/-- Modelled from the spec: the walk of `validate(rules)` — "walks the
tree; ... On first violation, fails with a ValidationError carrying the
failing rule's name, a message, and the path (ordered index list) from root
to the violating node." `depth` is the current node's depth from the root
and `path` the child-index path leading to it. -/
def validateGo (rules : ValidationRules) (depth : Nat) (path : List Nat) :
    Pattern T → Except ValidationError Unit
  | .mk v es =>
    match checkNode rules depth (.mk v es) with
    | some r => .error ⟨r, "Validation error: " ++ r, path⟩
    | none => validateForest rules (depth + 1) path 0 es
termination_by p => sizeOf p

/-- The walk of `validate` over the children of a node, left to right,
numbering them from `i` and stopping at the first violation. -/
def validateForest (rules : ValidationRules) (depth : Nat) (path : List Nat) :
    Nat → List (Pattern T) → Except ValidationError Unit
  | _, [] => .ok ()
  | i, e :: es =>
    match validateGo rules depth (path ++ [i]) e with
    | .ok _ => validateForest rules depth path (i + 1) es
    | .error err => .error err
termination_by _ es => sizeOf es
end

/-- Modelled from the spec: "`validate(rules)`: walks the tree ... Returns
successfully (no value) if no violation found in the whole tree." -/
def validate (rules : ValidationRules) (p : Pattern T) :
    Except ValidationError Unit :=
  validateGo rules 0 [] p

/-- The claim's success criterion for one node, stated from the spec's
words: the node's element count is within max_elements (if set) and its
depth-from-root within max_depth (if set). -/
def nodeOk (rules : ValidationRules) (depth : Nat) (p : Pattern T) : Bool :=
  (match rules.max_elements with
   | some m => decide (p.length ≤ m)
   | none => true) &&
  (match rules.max_depth with
   | some d => decide (depth ≤ d)
   | none => true)

mutual
/-- The claim's success criterion for a whole tree, stated from the spec's
words: "every node of the tree satisfies the set rules", each node judged
at its depth from the root. -/
def allNodesOk (rules : ValidationRules) (depth : Nat) : Pattern T → Bool
  | .mk v es => nodeOk rules depth (.mk v es) && allForestOk rules (depth + 1) es
termination_by p => sizeOf p

/-- `allNodesOk` over a children sequence. -/
def allForestOk (rules : ValidationRules) (depth : Nat) :
    List (Pattern T) → Bool
  | [] => true
  | e :: es => allNodesOk rules depth e && allForestOk rules depth es
termination_by es => sizeOf es
end

/-- The node of a Pattern reached by following a child-index path from the
root; none when the path leaves the tree. -/
def getAt : Pattern T → List Nat → Option (Pattern T)
  | p, [] => some p
  | p, i :: is =>
    match p.elements[i]? with
    | some e => getAt e is
    | none => none

/-- The claim's "first violating node", stated from the spec's words: the
strict pre-order ordering on child-index paths.  A node's path comes before
another's exactly when it is a proper ancestor (proper prefix) of it, or
branches off at a smaller child index — the order in which the pre-order
walk visits nodes. -/
def pathLt : List Nat → List Nat → Bool
  | [], [] => false
  | [], _ :: _ => true
  | _ :: _, [] => false
  | i :: u, j :: v => decide (i < j) || (decide (i = j) && pathLt u v)

/-- The element-wise production of `zip3` once the lengths are known to
agree: "Produces, for index i, `pattern(cs[i], [as[i], bs[i]])`." -/
def zip3Go : List (Pattern T) → List (Pattern T) → List T → List (Pattern T)
  | a :: as, b :: bs, c :: cs => .mk c [a, b] :: zip3Go as bs cs
  | _, _, _ => []

/-- Modelled from the spec: "`zip3(as, bs, cs)` → requires all three
sequences the same length; fails with LengthMismatch otherwise." -/
def zip3 (as bs : List (Pattern T)) (cs : List T) :
    Except String (List (Pattern T)) :=
  if as.length = cs.length ∧ bs.length = cs.length then
    .ok (zip3Go as bs cs)
  else .error "LengthMismatch"

/-- Modelled from the spec: "`from_values(values)` → lifts an ordered
sequence of raw T into an ordered sequence of atomic Pattern<T>, one per
input value, same order; idempotent when given Patterns already (an input
that is already a Pattern passes through unchanged)."  An input entry is
either a raw value (`Sum.inl`) or already a Pattern (`Sum.inr`). -/
def from_values : List (T ⊕ Pattern T) → List (Pattern T)
  | [] => []
  | .inl v :: rest => point v :: from_values rest
  | .inr p :: rest => p :: from_values rest

end Pattern

/-- Modelled from the spec: the dynamically-typed payloads the Python
binding accepts at the public interface (any host object may decorate a
node, None included); modelled as a closed type covering the host values
the tests exercise. -/
inductive PyVal where
  | none
  | bool (b : Bool)
  | int (n : Int)
  | str (s : String)
  deriving DecidableEq

section Theorems

namespace Pattern

theorem size_def (v : T) (es : List (Pattern T)) :
    size (.mk v es) = 1 + (es.map size).sum := by
  simp only [size]
  rw [List.attach_map_val]

theorem values_def (v : T) (es : List (Pattern T)) :
    values (.mk v es) = v :: (es.map values).flatten := by
  simp only [values]
  rw [List.attach_map_val]

theorem map_def (f : T → U) (v : T) (es : List (Pattern T)) :
    map f (.mk v es) = .mk (f v) (es.map (map f)) := by
  simp only [map]
  rw [List.attach_map_val]

theorem para_def (f : Pattern T → List R → R) (p : Pattern T) :
    para f p = f p (p.elements.map (para f)) := by
  cases p with
  | mk v es =>
    simp only [para]
    rw [List.attach_map_val]
    rfl

/-- Structural induction along the children relation, for the nested
inductive `Pattern`. -/
theorem ind {motive : Pattern T → Prop}
    (h : ∀ v es, (∀ e ∈ es, motive e) → motive (.mk v es)) :
    ∀ p, motive p
  | .mk v es => h v es (fun e he => ind h e)
termination_by p => sizeOf p
decreasing_by
  have h1 := List.sizeOf_lt_of_mem he
  simp only [mk.sizeOf_spec]
  omega

theorem length_values (p : Pattern T) : (values p).length = size p := by
  induction p using ind with
  | h v es ihs =>
    rw [values_def, size_def]
    simp only [List.length_cons, List.length_flatten, List.map_map]
    have hcong : es.map (List.length ∘ values) = es.map size :=
      List.map_congr_left (fun e he => by simp only [Function.comp]; exact ihs e he)
    rw [hcong]
    omega

end Pattern

/-- C1: for every Pattern p, `size p = 1 + (p.elements.map size).sum` (so
`1 ≤ size p` always), `length p = p.elements.length`, and `is_atomic p` is
true exactly when `length p = 0`. -/
theorem C1_size_length_atomic (T : Type) (p : Pattern T) :
    p.size = 1 + (p.elements.map Pattern.size).sum ∧
    1 ≤ p.size ∧
    p.length = p.elements.length ∧
    (p.is_atomic = true ↔ p.length = 0) := by
  cases p with
  | mk v es =>
    refine ⟨?_, ?_, rfl, ?_⟩
    · rw [Pattern.size_def]; rfl
    · rw [Pattern.size_def]; omega
    · simp [Pattern.is_atomic, Pattern.length, Pattern.elements, List.isEmpty_iff_length_eq_zero]

/-- C2: for every Pattern p, `values p` is the pre-order sequence (own value
first, then each element's full pre-order sequence in order); consequently
`(values p).length = size p` and the first value is `extract p`. -/
theorem C2_values_preorder (T : Type) (p : Pattern T) :
    p.values = p.value :: (p.elements.map Pattern.values).flatten ∧
    p.values.length = p.size ∧
    p.values.head? = some p.extract := by
  cases p with
  | mk v es =>
    refine ⟨?_, Pattern.length_values _, ?_⟩
    · rw [Pattern.values_def]; rfl
    · rw [Pattern.values_def]; rfl

namespace Pattern

theorem foldForest_eq (f : A → T → A) (es : List (Pattern T))
    (ihs : ∀ e ∈ es, ∀ acc, fold f acc e = (values e).foldl f acc) :
    ∀ acc, foldForest f acc es = ((es.map values).flatten).foldl f acc := by
  induction es with
  | nil => intro acc; simp [foldForest]
  | cons e es ih =>
    intro acc
    simp only [foldForest, List.map_cons, List.flatten_cons, List.foldl_append]
    rw [ihs e (by simp)]
    exact ih (fun e' he' acc' => ihs e' (by simp [he']) acc') _

theorem fold_eq_foldl (f : A → T → A) (p : Pattern T) :
    ∀ init, fold f init p = (values p).foldl f init := by
  induction p using ind with
  | h v es ihs =>
    intro init
    rw [values_def]
    simp only [List.foldl_cons, fold]
    exact foldForest_eq f es ihs (f init v)

theorem foldl_count (l : List T) : ∀ acc : Nat, l.foldl (fun a _ => a + 1) acc = acc + l.length := by
  induction l with
  | nil => intro acc; simp
  | cons x l ih => intro acc; simp [ih, Nat.add_comm, Nat.add_assoc, Nat.add_left_comm]

theorem size_point (v : T) : size (point v) = 1 := by
  simp [point, size_def]

theorem para_sum (p : Pattern Int) :
    para (fun node rs => node.value + rs.sum) p = (values p).sum := by
  induction p using ind with
  | h v es ihs =>
    rw [para_def, values_def]
    simp only [elements, value, List.sum_cons, List.sum_flatten, List.map_map]
    congr 1
    exact congrArg List.sum (List.map_congr_left (fun e he => by simpa using ihs e he))

theorem map_id_pat (p : Pattern T) : map (fun x => x) p = p := by
  induction p using ind with
  | h v es ihs =>
    rw [map_def]
    have h1 : es.map (map (fun x => x)) = es :=
      (List.map_congr_left ihs).trans (List.map_id' es)
    rw [h1]

theorem map_comp (f : T → U) (g : U → V) (p : Pattern T) :
    map g (map f p) = map (fun x => g (f x)) p := by
  induction p using ind with
  | h v es ihs =>
    rw [map_def, map_def, map_def]
    simp only [List.map_map]
    have h1 : es.map (map g ∘ map f) = es.map (map fun x => g (f x)) :=
      List.map_congr_left (fun e he => ihs e he)
    rw [h1]

theorem values_map (f : T → U) (p : Pattern T) :
    values (map f p) = (values p).map f := by
  induction p using ind with
  | h v es ihs =>
    rw [map_def, values_def, values_def]
    simp only [List.map_cons, List.map_flatten, List.map_map, List.cons.injEq, true_and]
    have h1 : es.map (values ∘ map f) = es.map (List.map f ∘ values) :=
      List.map_congr_left (fun e he => by simpa using ihs e he)
    exact congrArg List.flatten h1

theorem shape_map (f : T → U) (p : Pattern T) : shape (map f p) = shape p := by
  rw [shape, shape, map_comp]

theorem matchesPat_iff [DecidableEq T] (p q : Pattern T) :
    matchesPat p q = true ↔ p = q := by
  induction p using ind generalizing q with
  | h v es ihs =>
    cases q with
    | mk w fs =>
      simp only [matchesPat, Bool.and_eq_true, decide_eq_true_eq, mk.injEq]
      have h1 : matchesForest es fs = true ↔ es = fs := by
        induction es generalizing fs with
        | nil => cases fs <;> simp [matchesForest]
        | cons e es ih =>
          cases fs with
          | nil => simp [matchesForest]
          | cons g gs =>
            simp only [matchesForest, Bool.and_eq_true, List.cons.injEq]
            rw [ihs e (by simp) g,
              ih (fun e' he' q => ihs e' (by simp [he']) q)]
      rw [h1]

theorem checkNode_none_iff (rules : ValidationRules) (depth : Nat)
    (p : Pattern T) :
    checkNode rules depth p = none ↔ nodeOk rules depth p = true := by
  cases hme : rules.max_elements with
  | none =>
    cases hmd : rules.max_depth with
    | none => simp [checkNode, nodeOk, hme, hmd]
    | some d =>
      by_cases h : d < depth <;> simp [checkNode, nodeOk, hme, hmd, h] <;> omega
  | some m =>
    cases hmd : rules.max_depth with
    | none =>
      by_cases h : m < p.length <;> simp [checkNode, nodeOk, hme, hmd, h] <;> omega
    | some d =>
      by_cases h1 : m < p.length <;> by_cases h2 : d < depth <;>
        simp [checkNode, nodeOk, hme, hmd, h1, h2] <;> omega

theorem validateForest_ok_iff (rules : ValidationRules) (depth : Nat)
    (es : List (Pattern T))
    (ihs : ∀ e ∈ es, ∀ path,
      (validateGo rules depth path e = .ok ()) ↔
        allNodesOk rules depth e = true) :
    ∀ path i, (validateForest rules depth path i es = .ok ()) ↔
      allForestOk rules depth es = true := by
  induction es with
  | nil => intro path i; simp [validateForest, allForestOk]
  | cons e es ih =>
    intro path i
    simp only [validateForest, allForestOk, Bool.and_eq_true]
    cases h : validateGo rules depth (path ++ [i]) e with
    | ok u =>
      have he : allNodesOk rules depth e = true :=
        (ihs e (by simp) (path ++ [i])).mp (by rw [h])
      simp only [he, true_and]
      exact ih (fun e' he' path' => ihs e' (by simp [he']) path') path (i + 1)
    | error err =>
      have he : ¬ allNodesOk rules depth e = true := by
        intro hok
        have := (ihs e (by simp) (path ++ [i])).mpr hok
        rw [h] at this
        exact Except.noConfusion this
      simp [he]

theorem validateGo_ok_iff (rules : ValidationRules) (p : Pattern T) :
    ∀ depth path, (validateGo rules depth path p = .ok ()) ↔
      allNodesOk rules depth p = true := by
  induction p using ind with
  | h v es ihs =>
    intro depth path
    simp only [validateGo, allNodesOk, Bool.and_eq_true]
    cases hc : checkNode rules depth (.mk v es) with
    | some r =>
      have hnok : ¬ nodeOk rules depth (Pattern.mk v es) = true := by
        intro hok
        rw [(checkNode_none_iff rules depth _).mpr hok] at hc
        exact Option.noConfusion hc
      simp [hnok]
    | none =>
      have hok : nodeOk rules depth (Pattern.mk v es) = true :=
        (checkNode_none_iff rules depth _).mp hc
      simp only [hok, true_and]
      exact validateForest_ok_iff rules (depth + 1) es
        (fun e he path' => ihs e he (depth + 1) path') path 0

theorem validateForest_error (rules : ValidationRules) (depth : Nat)
    (es : List (Pattern T))
    (ihs : ∀ e ∈ es, ∀ depth' path err,
      validateGo rules depth' path e = .error err →
      ∃ suffix q, err.location = path ++ suffix ∧ getAt e suffix = some q ∧
        checkNode rules (depth' + suffix.length) q = some err.rule) :
    ∀ path i err, validateForest rules depth path i es = .error err →
      ∃ j e' suffix q, es[j]? = some e' ∧
        err.location = path ++ (i + j) :: suffix ∧
        getAt e' suffix = some q ∧
        checkNode rules (depth + suffix.length) q = some err.rule := by
  induction es with
  | nil => intro path i err h; simp [validateForest] at h
  | cons e es ih =>
    intro path i err h
    simp only [validateForest] at h
    cases hv : validateGo rules depth (path ++ [i]) e with
    | ok u =>
      rw [hv] at h
      obtain ⟨j, e', suffix, q, hj, hloc, hget, hcheck⟩ :=
        ih (fun e' he' => ihs e' (List.mem_cons_of_mem e he')) path (i + 1) err h
      refine ⟨j + 1, e', suffix, q, by simpa using hj, ?_, hget, hcheck⟩
      rw [hloc]
      have harith : i + 1 + j = i + (j + 1) := by omega
      rw [harith]
    | error err2 =>
      rw [hv] at h
      injection h with h
      subst h
      obtain ⟨suffix, q, hloc, hget, hcheck⟩ :=
        ihs e (by simp) depth (path ++ [i]) err2 hv
      refine ⟨0, e, suffix, q, by simp, ?_, hget, hcheck⟩
      rw [hloc, List.append_assoc]
      simp

theorem validateGo_error (rules : ValidationRules) (p : Pattern T) :
    ∀ depth path err, validateGo rules depth path p = .error err →
      ∃ suffix q, err.location = path ++ suffix ∧ getAt p suffix = some q ∧
        checkNode rules (depth + suffix.length) q = some err.rule := by
  induction p using ind with
  | h v es ihs =>
    intro depth path err herr
    simp only [validateGo] at herr
    cases hc : checkNode rules depth (.mk v es) with
    | some r =>
      rw [hc] at herr
      injection herr with herr
      subst herr
      exact ⟨[], .mk v es, by simp, rfl, by simpa using hc⟩
    | none =>
      rw [hc] at herr
      obtain ⟨j, e', suffix, q, hj, hloc, hget, hcheck⟩ :=
        validateForest_error rules (depth + 1) es (fun e he => ihs e he)
          path 0 err herr
      refine ⟨j :: suffix, q, ?_, ?_, ?_⟩
      · rw [hloc]; simp
      · simp only [getAt, elements, hj]
        exact hget
      · have harith : depth + (j :: suffix).length = depth + 1 + suffix.length := by
          simp only [List.length_cons]
          omega
        rw [harith]
        exact hcheck

theorem pathLt_append_left : ∀ u w : List Nat, pathLt (u ++ w) u = false := by
  intro u
  induction u with
  | nil =>
    intro w
    cases w with
    | nil => rfl
    | cons x w => rfl
  | cons i u ih =>
    intro w
    simp [pathLt, ih]

theorem pathLt_append_common :
    ∀ u a b : List Nat, pathLt (u ++ a) (u ++ b) = pathLt a b := by
  intro u
  induction u with
  | nil => intro a b; rfl
  | cons i u ih => intro a b; simp [pathLt, ih]

theorem allForestOk_getElem (rules : ValidationRules) (depth : Nat) :
    ∀ (es : List (Pattern T)) (j : Nat) e',
      allForestOk rules depth es = true → es[j]? = some e' →
      allNodesOk rules depth e' = true := by
  intro es
  induction es with
  | nil => intro j e' h hj; simp at hj
  | cons e es ih =>
    intro j e' h hj
    simp only [allForestOk, Bool.and_eq_true] at h
    cases j with
    | zero =>
      simp only [List.getElem?_cons_zero, Option.some.injEq] at hj
      rw [← hj]
      exact h.1
    | succ j' => exact ih j' e' h.2 (by simpa using hj)

theorem allNodesOk_getAt (rules : ValidationRules) (e : Pattern T) :
    ∀ depth, allNodesOk rules depth e = true →
      ∀ suffix q, getAt e suffix = some q →
        nodeOk rules (depth + suffix.length) q = true := by
  induction e using ind with
  | h v es ihs =>
    intro depth hok suffix q hget
    simp only [allNodesOk, Bool.and_eq_true] at hok
    cases suffix with
    | nil =>
      simp only [getAt, Option.some.injEq] at hget
      rw [← hget]
      simpa using hok.1
    | cons j suffix' =>
      simp only [getAt, elements] at hget
      cases hj : es[j]? with
      | none => rw [hj] at hget; exact Option.noConfusion hget
      | some e0 =>
        rw [hj] at hget
        have h0 : allNodesOk rules (depth + 1) e0 = true :=
          allForestOk_getElem rules (depth + 1) es j e0 hok.2 hj
        have hres := ihs e0 (List.getElem?_mem hj) (depth + 1) h0 suffix' q hget
        have harith : depth + (j :: suffix').length = depth + 1 + suffix'.length := by
          simp only [List.length_cons]
          omega
        rw [harith]
        exact hres

theorem validateForest_error_first (rules : ValidationRules) (depth : Nat)
    (es : List (Pattern T))
    (ihs : ∀ e ∈ es, ∀ depth' path' err,
      validateGo rules depth' path' e = .error err →
      ∀ suffix q, getAt e suffix = some q →
        pathLt (path' ++ suffix) err.location = true →
        nodeOk rules (depth' + suffix.length) q = true) :
    ∀ path i err, validateForest rules depth path i es = .error err →
      ∀ j e' suffix q, es[j]? = some e' → getAt e' suffix = some q →
        pathLt (path ++ (i + j) :: suffix) err.location = true →
        nodeOk rules (depth + suffix.length) q = true := by
  induction es with
  | nil => intro path i err h; simp [validateForest] at h
  | cons e es ih =>
    intro path i err h j e' suffix q hj hget hlt
    simp only [validateForest] at h
    cases hv : validateGo rules depth (path ++ [i]) e with
    | error err2 =>
      rw [hv] at h
      injection h with h
      subst h
      obtain ⟨errSuffix, qe, hloc, hgete, hchecke⟩ :=
        validateGo_error rules e depth (path ++ [i]) err2 hv
      cases j with
      | zero =>
        simp only [List.getElem?_cons_zero, Option.some.injEq] at hj
        subst hj
        apply ihs e (by simp) depth (path ++ [i]) err2 hv suffix q hget
        have heq : path ++ (i + 0) :: suffix = (path ++ [i]) ++ suffix := by simp
        rwa [heq] at hlt
      | succ j' =>
        exfalso
        rw [hloc] at hlt
        have heq : (path ++ [i]) ++ errSuffix = path ++ i :: errSuffix := by simp
        rw [heq, pathLt_append_common] at hlt
        simp only [pathLt, Bool.or_eq_true, Bool.and_eq_true,
          decide_eq_true_eq] at hlt
        rcases hlt with h1 | ⟨h2, _⟩
        · omega
        · omega
    | ok u =>
      rw [hv] at h
      cases j with
      | zero =>
        simp only [List.getElem?_cons_zero, Option.some.injEq] at hj
        subst hj
        have hok : allNodesOk rules depth e = true :=
          (validateGo_ok_iff rules e depth (path ++ [i])).mp (by rw [hv])
        exact allNodesOk_getAt rules e depth hok suffix q hget
      | succ j' =>
        have harith : i + (j' + 1) = i + 1 + j' := by omega
        rw [harith] at hlt
        exact ih (fun e'' he'' => ihs e'' (List.mem_cons_of_mem e he''))
          path (i + 1) err h j' e' suffix q (by simpa using hj) hget hlt

theorem validateGo_error_first (rules : ValidationRules) (p : Pattern T) :
    ∀ depth path err, validateGo rules depth path p = .error err →
      ∀ suffix q, getAt p suffix = some q →
        pathLt (path ++ suffix) err.location = true →
        nodeOk rules (depth + suffix.length) q = true := by
  induction p using ind with
  | h v es ihs =>
    intro depth path err herr suffix q hget hlt
    simp only [validateGo] at herr
    cases hc : checkNode rules depth (.mk v es) with
    | some r =>
      rw [hc] at herr
      injection herr with herr
      subst herr
      rw [pathLt_append_left] at hlt
      exact Bool.noConfusion hlt
    | none =>
      rw [hc] at herr
      cases suffix with
      | nil =>
        simp only [getAt, Option.some.injEq] at hget
        rw [← hget]
        simpa using (checkNode_none_iff rules depth _).mp hc
      | cons j suffix' =>
        simp only [getAt, elements] at hget
        cases hj : es[j]? with
        | none => rw [hj] at hget; exact Option.noConfusion hget
        | some e0 =>
          rw [hj] at hget
          have hres := validateForest_error_first rules (depth + 1) es
            (fun e he => ihs e he) path 0 err herr j e0 suffix' q hj hget
            (by simpa using hlt)
          have harith : depth + (j :: suffix').length = depth + 1 + suffix'.length := by
            simp only [List.length_cons]
            omega
          rw [harith]
          exact hres

theorem zip3Go_length (as : List (Pattern T)) :
    ∀ bs cs, as.length = cs.length → bs.length = cs.length →
      (zip3Go as bs cs).length = cs.length := by
  induction as with
  | nil =>
    intro bs cs h1 h2
    cases cs with
    | nil => simp [zip3Go]
    | cons c cs => simp at h1
  | cons a as ih =>
    intro bs cs h1 h2
    cases cs with
    | nil => simp at h1
    | cons c cs =>
      cases bs with
      | nil => simp at h2
      | cons b bs =>
        simp only [zip3Go, List.length_cons]
        rw [ih bs cs (by simpa using h1) (by simpa using h2)]

theorem zip3Go_get (as : List (Pattern T)) :
    ∀ bs cs (i : Nat), as.length = cs.length → bs.length = cs.length →
      i < cs.length →
      ∃ a b c, as[i]? = some a ∧ bs[i]? = some b ∧ cs[i]? = some c ∧
        (zip3Go as bs cs)[i]? = some (Pattern.mk c [a, b]) := by
  induction as with
  | nil =>
    intro bs cs i h1 h2 hi
    cases cs with
    | nil => simp at hi
    | cons c cs => simp at h1
  | cons a as ih =>
    intro bs cs i h1 h2 hi
    cases cs with
    | nil => simp at h1
    | cons c cs =>
      cases bs with
      | nil => simp at h2
      | cons b bs =>
        cases i with
        | zero => exact ⟨a, b, c, by simp, by simp, by simp, by simp [zip3Go]⟩
        | succ i =>
          obtain ⟨a', b', c', ha, hb, hc, hz⟩ :=
            ih bs cs i (by simpa using h1) (by simpa using h2) (by simpa using hi)
          refine ⟨a', b', c', by simpa using ha, by simpa using hb,
            by simpa using hc, ?_⟩
          simpa [zip3Go] using hz

theorem values_point (v : T) : values (point v) = [v] := by
  simp [point, values_def]

theorem from_values_inl (vs : List T) :
    from_values (vs.map Sum.inl) = vs.map point := by
  induction vs with
  | nil => simp [from_values]
  | cons v vs ih => simp [from_values, ih]

theorem flatten_singletons (vs : List T) :
    (vs.map (fun v => [v])).flatten = vs := by
  induction vs with
  | nil => simp
  | cons v vs ih => simp [ih]

theorem map_length (f : T → U) (p : Pattern T) :
    (map f p).length = p.length := by
  cases p
  rw [map_def]
  simp [length, elements]

end Pattern

/-- C3: for every Pattern p, `fold f init p` is the strict left fold of f
over p's full pre-order value sequence starting from init, root included;
folding a counter over a root with n children yields n + 1. -/
theorem C3_fold_preorder (T A : Type) (f : A → T → A) (init : A)
    (p : Pattern T) (v w : T) (n : Nat) :
    p.fold f init = p.values.foldl f init ∧
    (Pattern.mk v (List.replicate n (Pattern.point w))).fold
      (fun acc _ => acc + 1) 0 = n + 1 := by
  constructor
  · exact Pattern.fold_eq_foldl f p init
  · rw [Pattern.fold_eq_foldl, Pattern.foldl_count, Nat.zero_add,
      Pattern.length_values, Pattern.size_def]
    simp [List.map_replicate, Pattern.size_point, List.sum_replicate]
    omega

/-- C4: `para f` applies f(node, []) at atomic nodes and, at composite
nodes, applies f to the node and its children's already-computed results in
order; for numeric payloads summing node value and child results agrees
with `fold 0 (+)`, and on pattern(1, [point(2), pattern(3, [point(4)])]) it
returns 10. -/
theorem C4_para (T : Type) (v : T) (es : List (Pattern T)) :
    (∀ (R : Type) (f : Pattern T → List R → R),
      (Pattern.mk v es).para f = f (.mk v es) (es.map (Pattern.para f)) ∧
      (Pattern.point v).para f = f (Pattern.point v) []) ∧
    (∀ q : Pattern Int,
      q.para (fun node rs => node.value + rs.sum) =
        q.fold (fun acc x => acc + x) 0) ∧
    (Pattern.pattern (1 : Int)
        [Pattern.point 2, Pattern.pattern 3 [Pattern.point 4]]).para
      (fun node rs => node.value + rs.sum) = 10 := by
  refine ⟨fun R f => ⟨Pattern.para_def f _, ?_⟩, fun q => ?_, ?_⟩
  · rw [Pattern.para_def]; rfl
  · rw [Pattern.para_sum, Pattern.fold_eq_foldl, List.sum_eq_foldl]
  · simp [Pattern.pattern, Pattern.point, Pattern.para_def, Pattern.value,
      Pattern.elements]

/-- C5: combine under the default merge strategy is associative for Subject
payloads: both associations yield Subjects with identical identity and
identical label sets. -/
theorem C5_combine_merge_assoc (a b c : Pattern Subject) :
    ((a.combine Subject.merge b).combine Subject.merge c).value.identity =
      (a.combine Subject.merge (b.combine Subject.merge c)).value.identity ∧
    ((a.combine Subject.merge b).combine Subject.merge c).value.labels =
      (a.combine Subject.merge (b.combine Subject.merge c)).value.labels := by
  constructor
  · rfl
  · simp only [Pattern.combine, Pattern.value, Subject.merge]
    exact Finset.union_assoc _ _ _

/-- C6: for all Patterns a and b, `combine` concatenates elements (a's
first, order preserved, so lengths add), and for string payloads the
result's value is a's value followed by b's value. -/
theorem C6_combine_concat (T : Type) (f : T → T → T) (a b : Pattern T)
    (s t : Pattern String) :
    (a.combine f b).elements = a.elements ++ b.elements ∧
    (a.combine f b).length = a.length + b.length ∧
    (s.combineStr t).value = s.value ++ t.value ∧
    (s.combineStr t).elements = s.elements ++ t.elements := by
  refine ⟨rfl, ?_, rfl, rfl⟩
  simp [Pattern.combine, Pattern.length, Pattern.elements]

/-- C7: map obeys the functor laws and preserves shape: mapping the
identity matches the original, mapping f then g matches mapping their
composition, and `map f` keeps the shape while replacing every value by
f(value). -/
theorem C7_functor (T U V : Type) [DecidableEq T] [DecidableEq V]
    (f : T → U) (g : U → V) (p : Pattern T) :
    (p.map (fun x => x)).matchesPat p = true ∧
    ((p.map f).map g).matchesPat (p.map (fun x => g (f x))) = true ∧
    (p.map f).shape = p.shape ∧
    (p.map f).values = p.values.map f := by
  refine ⟨?_, ?_, Pattern.shape_map f p, Pattern.values_map f p⟩
  · rw [Pattern.map_id_pat]; exact (Pattern.matchesPat_iff p p).mpr rfl
  · rw [Pattern.map_comp]; exact (Pattern.matchesPat_iff _ _).mpr rfl

/-- C8: validate succeeds exactly when every node of the tree satisfies the
set rules; on failure the ValidationError carries the failing rule's name
and the child-index path from root to the first violating node of the
pre-order walk — the addressed node violates the named rule and every node
strictly before it in pre-order satisfies the rules; a root with 10 atomic
children under max_elements=5 fails with rule "max_elements" at location
[], while a tree within both bounds passes. -/
theorem C8_validate (T : Type) (rules : ValidationRules) (p : Pattern T)
    (err : ValidationError) :
    (p.validate rules = .ok () ↔ p.allNodesOk rules 0 = true) ∧
    (p.validate rules = .error err →
      ∃ q, p.getAt err.location = some q ∧
        Pattern.checkNode rules err.location.length q = some err.rule) ∧
    (p.validate rules = .error err →
      ∀ path q, p.getAt path = some q →
        Pattern.pathLt path err.location = true →
        Pattern.nodeOk rules path.length q = true) ∧
    (Pattern.mk "root" (List.replicate 10 (Pattern.point "child"))).validate
        ⟨none, some 5⟩ =
      .error ⟨"max_elements", "Validation error: max_elements", []⟩ ∧
    (Pattern.mk "root" [Pattern.point "c1", Pattern.point "c2"]).validate
        ⟨some 5, some 10⟩ = .ok () := by
  refine ⟨Pattern.validateGo_ok_iff rules p 0 [], ?_, ?_, ?_, ?_⟩
  · intro herr
    obtain ⟨suffix, q, hloc, hget, hcheck⟩ :=
      Pattern.validateGo_error rules p 0 [] err herr
    have hsuff : err.location = suffix := by simpa using hloc
    rw [hsuff]
    exact ⟨q, hget, by simpa using hcheck⟩
  · intro herr path q hget hlt
    have hres := Pattern.validateGo_error_first rules p 0 [] err herr
      path q hget (by simpa using hlt)
    simpa using hres
  · simp [Pattern.validate, Pattern.validateGo, Pattern.checkNode,
      Pattern.length, Pattern.elements]
  · simp [Pattern.validate, Pattern.validateGo, Pattern.validateForest,
      Pattern.checkNode, Pattern.length, Pattern.elements, Pattern.point]

/-- Witness for C8 at concrete inputs: the root with 10 atomic children
violates max_elements=5 at the root itself (location [], depth 0); and on
a root whose second child has 6 children, validate reports location [1]
while the node at the strictly earlier pre-order path [0] satisfies the
rules. -/
theorem C8_validate_witness :
    (∃ q, (Pattern.mk "root" (List.replicate 10 (Pattern.point "child"))).getAt
        [] = some q ∧
      Pattern.checkNode ⟨none, some 5⟩ 0 q = some "max_elements") ∧
    Pattern.nodeOk ⟨none, some 5⟩ 1 (Pattern.point "a") = true := by
  constructor
  · have h := C8_validate String ⟨none, some 5⟩
      (Pattern.mk "root" (List.replicate 10 (Pattern.point "child")))
      ⟨"max_elements", "Validation error: max_elements", []⟩
    exact h.2.1 h.2.2.2.1
  · have h := C8_validate String ⟨none, some 5⟩
      (Pattern.mk "root" [Pattern.point "a",
        Pattern.mk "b" (List.replicate 6 (Pattern.point "x"))])
      ⟨"max_elements", "Validation error: max_elements", [1]⟩
    have hfirst := h.2.2.1
    have herr : (Pattern.mk "root" [Pattern.point "a",
        Pattern.mk "b" (List.replicate 6 (Pattern.point "x"))]).validate
        ⟨none, some 5⟩ =
        .error ⟨"max_elements", "Validation error: max_elements", [1]⟩ := by
      simp [Pattern.validate, Pattern.validateGo, Pattern.validateForest,
        Pattern.checkNode, Pattern.length, Pattern.elements, Pattern.point]
    have hget : (Pattern.mk "root" [Pattern.point "a",
        Pattern.mk "b" (List.replicate 6 (Pattern.point "x"))]).getAt [0] =
        some (Pattern.point "a") := by
      simp [Pattern.getAt, Pattern.elements]
    exact hfirst herr [0] (Pattern.point "a") hget rfl

/-- C9: zip3 requires the three inputs to have one common length and fails
with LengthMismatch otherwise; on equal lengths it produces, per index i,
a Pattern with value cs[i] and elements [as[i], bs[i]]; on
([point "a"], [point "b"], ["KNOWS"]) it yields the single Pattern with
value "KNOWS" and elements [point "a", point "b"]. -/
theorem C9_zip3 (T : Type) (as bs : List (Pattern T)) (cs : List T) :
    (¬(as.length = cs.length ∧ bs.length = cs.length) ↔
      Pattern.zip3 as bs cs = .error "LengthMismatch") ∧
    (∀ rs, Pattern.zip3 as bs cs = .ok rs →
      rs.length = cs.length ∧
      ∀ i : Nat, i < cs.length →
        ∃ a b c, as[i]? = some a ∧ bs[i]? = some b ∧ cs[i]? = some c ∧
          rs[i]? = some (Pattern.mk c [a, b])) ∧
    Pattern.zip3 [Pattern.point "a"] [Pattern.point "b"] ["KNOWS"] =
      .ok [Pattern.mk "KNOWS" [Pattern.point "a", Pattern.point "b"]] := by
  refine ⟨?_, ?_, ?_⟩
  · by_cases h : as.length = cs.length ∧ bs.length = cs.length
    · simp [Pattern.zip3, h]
    · simp [Pattern.zip3, h]
  · intro rs hok
    by_cases h : as.length = cs.length ∧ bs.length = cs.length
    · rw [Pattern.zip3, if_pos h] at hok
      injection hok with hok
      subst hok
      exact ⟨Pattern.zip3Go_length as bs cs h.1 h.2,
        fun i hi => Pattern.zip3Go_get as bs cs i h.1 h.2 hi⟩
    · rw [Pattern.zip3, if_neg h] at hok
      exact Except.noConfusion hok
  · rfl

/-- Witness for C9 at a concrete input: the produced Pattern at index 0 of
zip3([point "a"], [point "b"], ["KNOWS"]) has value "KNOWS" and elements
[point "a", point "b"]. -/
theorem C9_zip3_witness :
    ∃ a b c, [Pattern.point "a"][0]? = some a ∧
      [Pattern.point "b"][0]? = some b ∧
      (["KNOWS"] : List String)[0]? = some c ∧
      [Pattern.mk "KNOWS" [Pattern.point "a", Pattern.point "b"]][0]? =
        some (Pattern.mk c [a, b]) := by
  have h := C9_zip3 String [Pattern.point "a"] [Pattern.point "b"] ["KNOWS"]
  exact (h.2.1 _ h.2.2).2 0 (by simp)

/-- C10: None is an accepted payload at the public interface: point(None)
yields an atomic Pattern; from_values over raw inputs produces one atomic
pattern per input in order, so a parent built from them has the raw inputs
(None included) in its values() right after the root's own value; and map
with a callback returning None for every node preserves the tree's shape
and children counts. -/
theorem C10_none_payload (r : PyVal) (vs : List PyVal) (p : Pattern PyVal) :
    (Pattern.point PyVal.none).is_atomic = true ∧
    Pattern.from_values (vs.map Sum.inl) = vs.map Pattern.point ∧
    (Pattern.mk r (Pattern.from_values (vs.map Sum.inl))).values = r :: vs ∧
    (p.map (fun _ => PyVal.none)).shape = p.shape ∧
    (p.map (fun _ => PyVal.none)).length = p.length := by
  refine ⟨rfl, Pattern.from_values_inl vs, ?_, Pattern.shape_map _ p,
    Pattern.map_length _ p⟩
  rw [Pattern.values_def, Pattern.from_values_inl]
  simp only [List.map_map]
  have h1 : vs.map (Pattern.values ∘ Pattern.point) = vs.map (fun v => [v]) :=
    List.map_congr_left (fun v _ => by
      simp [Function.comp, Pattern.values_point])
  rw [h1, Pattern.flatten_singletons]

end Theorems
